import Mathlib

/-!
Verification of the mongovcore-aisearch repository.

The repository contains `myapp.js` (a synthetic-data seeder for a MongoDB
vCore collection) and `README.md` describing the CosmosDB → Azure AI Search
ETL pipeline.  The seeder is embedded below directly from the source; the
pipeline components referenced by the README (`main.py`, `search_index.py`)
are not present in the repository, so those parts are modelled from the
specification, as marked on each definition.
-/

set_option autoImplicit false

/-- Embedding of `randomIntFromInterval(min, max)` from `myapp.js`:
`Math.floor(Math.random() * (max - min + 1) + min)`.  The `Math.random()`
result is the rational argument `r`; JavaScript guarantees `0 ≤ r < 1`. -/
def randomIntFromInterval (r : ℚ) (lo hi : Int) : Int :=
  ⌊r * ((hi : ℚ) - (lo : ℚ) + 1) + (lo : ℚ)⌋

/-- A tape of `Math.random()` results: every draw lies in `[0, 1)`,
exactly the contract of `Math.random()`. -/
def ValidTape (u : Nat → ℚ) : Prop := ∀ n, 0 ≤ u n ∧ u n < 1

/-- Oracles for the faker library calls in `myapp.js`.  Each faker stream is
an arbitrary function of a call index; the `datePast` stream is consumed in
program order through an explicit position, the per-day name/word/email
calls are indexed by the day number. -/
structure Faker where
  firstName : Nat → String
  lastName : Nat → String
  loremWord : Nat → String
  email : String → String → Nat → String
  datePast : Nat → Int

/-- Embedding of the event object literal
`{ timestamp_event: faker.date.past(), weight: randomIntFromInterval(14,16) }`. -/
structure Event where
  timestamp_event : Int
  weight : Int

/-- Embedding of the `owner` object literal of `myapp.js`. -/
structure Owner where
  email : String
  firstName : String
  lastName : String

/-- Embedding of the `newDay` object literal of `myapp.js`: fields
`timestamp_day`, `cat`, `owner`, `events`, exactly as in the source. -/
structure SyntheticDay where
  timestamp_day : Int
  cat : String
  owner : Owner
  events : List Event

/-- Embedding of the inner event loop of `myapp.js`:
`for (let j = 0; j < randomIntFromInterval(1, 6); j++) { ... }`.
The loop guard re-draws `randomIntFromInterval(1, 6)` before every
iteration (one `Math.random()` draw per guard check), and each body
iteration draws one more `Math.random()` for the weight, so the guard at
counter `j` reads tape position `rp + 2*j`.  On a valid tape every bound is
at most 6, so the guard at `j = 6` always fails; fuel `7` therefore covers
every execution of the source loop.  Returns the events together with the
next free positions of the random tape and the date stream. -/
def eventsLoop (F : Faker) (u : Nat → ℚ) : Nat → Nat → Nat → Nat → List Event × Nat × Nat
  | 0, _, rp, dp => ([], rp, dp)
  | fuel+1, j, rp, dp =>
    if (j : Int) < randomIntFromInterval (u rp) 1 6 then
      let rest := eventsLoop F u fuel (j+1) (rp+2) (dp+1)
      ({ timestamp_event := F.datePast dp, weight := randomIntFromInterval (u (rp+1)) 14 16 } :: rest.1,
       rest.2)
    else
      ([], rp+1, dp)

/-- Embedding of one iteration of the outer `for (let i = 0; i < 5000; i++)`
body of `myapp.js`: draw the names, build the `newDay` literal (day
timestamp from the date stream at `dp`, events starting at `dp+1`), and
return the day with the next free tape positions. -/
def mkDay (F : Faker) (u : Nat → ℚ) (i rp dp : Nat) : SyntheticDay × Nat × Nat :=
  let fn := F.firstName i
  let ln := F.lastName i
  let out := eventsLoop F u 7 0 rp (dp+1)
  ({ timestamp_day := F.datePast dp,
     cat := F.loremWord i,
     owner := { email := F.email fn ln i, firstName := fn, lastName := ln },
     events := out.1 }, out.2)

/-- Embedding of the outer loop of `myapp.js`, building `timeSeriesData` by
pushing one `newDay` per iteration; `n` is the number of iterations left,
`i` the day index, `rp` and `dp` the tape positions. -/
def seedLoop (F : Faker) (u : Nat → ℚ) : Nat → Nat → Nat → Nat → List SyntheticDay
  | 0, _, _, _ => []
  | n+1, i, rp, dp =>
    let out := mkDay F u i rp dp
    out.1 :: seedLoop F u n (i+1) out.2.1 out.2.2

/-- The full `timeSeriesData` array built by `seedDB` in `myapp.js`: the
loop bound is the hardcoded constant `5000`. -/
def timeSeriesData (F : Faker) (u : Nat → ℚ) : List SyntheticDay :=
  seedLoop F u 5000 0 0 0

/-- Follows the spec's words, for a refinement comparison with the code:
`generate(count)` returns a sequence of `count` SyntheticDay items, with the
same per-day construction as the source. -/
def generateSpec (F : Faker) (u : Nat → ℚ) (count : Nat) : List SyntheticDay :=
  seedLoop F u count 0 0 0

/-- Generic document values, for the BSON/JSON documents the pipeline moves. -/
inductive Value where
  | str (s : String)
  | int (n : Int)
  | date (t : Int)
  | arr (vs : List Value)
  | obj (fields : List (String × Value))

/-- Serialization of an `Event` as the document sent to the store: the keys
are exactly the keys of the event object literal in `myapp.js`. -/
def Event.toDoc (e : Event) : List (String × Value) :=
  [("timestamp_event", Value.date e.timestamp_event), ("weight", Value.int e.weight)]

/-- Serialization of an `Owner` as a subdocument: the keys are exactly the
keys of the `owner` object literal in `myapp.js`. -/
def Owner.toDoc (o : Owner) : List (String × Value) :=
  [("email", Value.str o.email), ("firstName", Value.str o.firstName),
   ("lastName", Value.str o.lastName)]

/-- Serialization of a `SyntheticDay` as the document sent to the store: the
keys are exactly the keys of the `newDay` object literal in `myapp.js`
(`timestamp_day`, `cat`, `owner`, `events`). -/
def SyntheticDay.toDoc (d : SyntheticDay) : List (String × Value) :=
  [("timestamp_day", Value.date d.timestamp_day),
   ("cat", Value.str d.cat),
   ("owner", Value.obj d.owner.toDoc),
   ("events", Value.arr (d.events.map (fun e => Value.obj e.toDoc)))]

/-- The top-level field names of a serialized day. -/
def docKeys (d : SyntheticDay) : List String :=
  d.toDoc.map Prod.fst

/-- The field names of the serialized `owner` subdocument. -/
def ownerKeys (d : SyntheticDay) : List String :=
  d.owner.toDoc.map Prod.fst

/-- Concrete faker oracle used for witnesses and counterexamples. -/
def F0 : Faker :=
  { firstName := fun _ => "", lastName := fun _ => "", loremWord := fun _ => "",
    email := fun _ _ _ => "", datePast := fun _ => 0 }

/-- Concrete random tape: every draw is `0`. -/
def u0 : Nat → ℚ := fun _ => 0

/-- Concrete random tape whose first draw gives bound 6 and whose later
draws give bound 1. -/
def uA : Nat → ℚ := fun n => if n = 0 then 5/6 else 0

/-- Concrete random tape all of whose draws give bound 6. -/
def uB : Nat → ℚ := fun _ => 5/6

/-- Log lines printed by `seedDB` in `myapp.js`. -/
inductive LogMsg where
  | connectedMsg
  | seededMsg
  | errStackMsg
  | closedMsg

/-- Observable store and console actions performed by `seedDB`. -/
inductive DbAction where
  | connect
  | insertMany (docs : List SyntheticDay)
  | close
  | log (m : LogMsg)

/-- Fault environment for a run of `seedDB`: whether `client.connect()` and
`collection.insertMany(...)` succeed, plus the randomness oracles. -/
structure SeedEnv where
  connectOk : Bool
  insertOk : Bool
  F : Faker
  u : Nat → ℚ

/-- Embedding of the `try` block of `seedDB` in `myapp.js`: connect (may
throw), log, build `timeSeriesData` in memory, then one
`collection.insertMany(timeSeriesData)` call (may throw), then log.
Returns the actions performed and whether the block threw. -/
def seedTry (env : SeedEnv) : List DbAction × Bool :=
  if env.connectOk then
    let data := timeSeriesData env.F env.u
    if env.insertOk then
      ([DbAction.connect, DbAction.log LogMsg.connectedMsg,
        DbAction.insertMany data, DbAction.log LogMsg.seededMsg], false)
    else
      ([DbAction.connect, DbAction.log LogMsg.connectedMsg,
        DbAction.insertMany data], true)
  else
    ([DbAction.connect], true)

/-- Embedding of `seedDB` in `myapp.js`: `try { ... } catch (err) {
console.log(err.stack) } finally { if (client) { await client.close(); ... } }`.
The `catch` clause handles every error from the `try` block and only logs,
and `client` is always non-null (it is constructed before the `try`), so the
`finally` clause always closes the client; neither the handler nor the
finalizer throws, so no error escapes.  Returns the action trace and whether
an error propagates to the caller (the returned promise rejects). -/
def seedDB (env : SeedEnv) : List DbAction × Bool :=
  let t := seedTry env
  (t.1 ++ (if t.2 then [DbAction.log LogMsg.errStackMsg] else [])
      ++ [DbAction.close, DbAction.log LogMsg.closedMsg], false)

/-- Recognizer for bulk-insert actions in a `seedDB` trace. -/
def isInsert : DbAction → Bool
  | DbAction.insertMany _ => true
  | _ => false

/-- Concrete no-fault environment. -/
def env0 : SeedEnv := { connectOk := true, insertOk := true, F := F0, u := u0 }

/-- Concrete environment whose connect fails. -/
def envFail : SeedEnv := { connectOk := false, insertOk := true, F := F0, u := u0 }

/-- Documents handled by the ETL pipeline: source documents read from the
store and index documents pushed to the search index. -/
abbrev SourceDoc : Type := List (String × Value)

/-- Index documents pushed to the search index. -/
abbrev IndexDoc : Type := List (String × Value)

/-- First-match field lookup in a document. -/
def lookupField (n : String) : List (String × Value) → Option Value
  | [] => none
  | (m, v) :: rest => if m = n then some v else lookupField n rest

/-- Modelled from the spec: the Batch Loader of `main.py` is not in the
repository.  Per §4.5 of the spec, `load` consumes the input sequence,
accumulating IndexDocuments into a buffer; when the buffer reaches
`batchSize` (or the input is exhausted with a non-empty buffer) it pushes
the buffer as one unit and clears it.  `loadAux B buf docs` returns the
sequence of pushed batches, in push order. -/
def loadAux (B : Nat) : List IndexDoc → List IndexDoc → List (List IndexDoc)
  | buf, [] => if buf.isEmpty then [] else [buf]
  | buf, d :: rest =>
    if (buf ++ [d]).length = B then (buf ++ [d]) :: loadAux B [] rest
    else loadAux B (buf ++ [d]) rest

/-- Modelled from the spec: `load(documents, batchSize)` of §4.5, starting
from an empty buffer; the result is the sequence of batches pushed to the
index's bulk-upsert endpoint. -/
def load (B : Nat) (docs : List IndexDoc) : List (List IndexDoc) :=
  loadAux B [] docs

/-- Reference chunking of a list into consecutive pieces of size `B` (last
piece possibly shorter), used to reason about `load`. -/
def chunks (B : Nat) : List IndexDoc → List (List IndexDoc)
  | [] => []
  | d :: rest => (d :: rest.take (B - 1)) :: chunks B (rest.drop (B - 1))
termination_by l => l.length
decreasing_by simp [List.length_drop]; omega

/-- Modelled from the spec: a field definition of an IndexSchema (§3). -/
structure FieldDef where
  name : String
  type : String
  key : Bool
  searchable : Bool

/-- Modelled from the spec: an IndexSchema (§3), `{ name, fields }`. -/
structure IndexSchema where
  name : String
  fields : List FieldDef

/-- Modelled from the spec: the remote state of one search index — its
declared field set and the documents it currently holds. -/
structure RemoteIndex where
  fields : List FieldDef
  data : List IndexDoc

/-- Modelled from the spec: the search service state, a map from index name
to remote index. -/
abbrev ServiceState : Type := List (String × RemoteIndex)

/-- Lookup of an index by name in the service state. -/
def getIndex (n : String) : ServiceState → Option RemoteIndex
  | [] => none
  | (m, idx) :: rest => if m = n then some idx else getIndex n rest

/-- Modelled from the spec: the service's "get index schema by name"
existence check used by `ensureIndex`. -/
def indexExists (n : String) (st : ServiceState) : Bool :=
  (getIndex n st).isSome

/-- Modelled from the spec: the service's "delete index by name" operation. -/
def deleteIndex (n : String) : ServiceState → ServiceState
  | [] => []
  | (m, idx) :: rest =>
    if m = n then deleteIndex n rest else (m, idx) :: deleteIndex n rest

/-- Modelled from the spec: the service's "create index from schema"
operation — the new index has the schema's field set and no data. -/
def createIndex (s : IndexSchema) (st : ServiceState) : ServiceState :=
  st ++ [(s.name, { fields := s.fields, data := [] })]

/-- Modelled from the spec: `ensureIndex(schema)` of §4.3 — if an index with
`schema.name` exists, delete it, then create fresh with the given schema;
if absent, create directly.  The Index Schema Manager (`search_index.py`)
is not in the repository. -/
def ensureIndex (s : IndexSchema) (st : ServiceState) : ServiceState :=
  if indexExists s.name st then createIndex s (deleteIndex s.name st)
  else createIndex s st

/-- Modelled from the spec: `transform_document(doc)` following §4.4 and the
template in `src/README.md` — populate the key field `id` from the source
document's `_id` identifier, failing (`MissingKeyError`) when it is absent;
the actual `search_index.py` is not in the repository. -/
def transform_document (doc : SourceDoc) : Option IndexDoc :=
  match lookupField "_id" doc with
  | some v => some [("id", v)]
  | none => none

/-- The transformer run with an explicit service-state world, to express
that it performs no I/O: it returns the pure `transform_document` result
and leaves the world untouched. -/
def transformWithState (st : ServiceState) (doc : SourceDoc) : Option IndexDoc × ServiceState :=
  (transform_document doc, st)

/-- Concrete source document with an `_id`, for witnesses. -/
def doc0 : SourceDoc := [("_id", Value.str "d1")]

/-- Concrete list of three empty index documents, for witnesses. -/
def docs3 : List IndexDoc := [[], [], []]

/-- Any draw in `[0,1)` put through `randomIntFromInterval lo hi` with
`lo ≤ hi` lands in the closed interval `[lo, hi]`. -/
theorem randomIntFromInterval_bounds (r : ℚ) (lo hi : Int) (h0 : 0 ≤ r) (h1 : r < 1)
    (hle : lo ≤ hi) :
    lo ≤ randomIntFromInterval r lo hi ∧ randomIntFromInterval r lo hi ≤ hi := by
  have hk : (0 : ℚ) < (hi : ℚ) - (lo : ℚ) + 1 := by
    have : (lo : ℚ) ≤ (hi : ℚ) := by exact_mod_cast hle
    linarith
  constructor
  · rw [randomIntFromInterval, Int.le_floor]
    have : (0 : ℚ) ≤ r * ((hi : ℚ) - (lo : ℚ) + 1) := mul_nonneg h0 (le_of_lt hk)
    linarith
  · have hlt : r * ((hi : ℚ) - (lo : ℚ) + 1) + (lo : ℚ) < (hi : ℚ) + 1 := by
      have := mul_lt_mul_of_pos_right h1 hk
      rw [one_mul] at this
      linarith
    have : randomIntFromInterval r lo hi < hi + 1 := by
      rw [randomIntFromInterval, Int.floor_lt]
      push_cast
      linarith
    omega

/-- Master invariant of the embedded event loop, for a valid random tape and
enough fuel (`7 ≤ j + fuel` covers every execution of the source loop):
the produced events either keep `j + length ≤ 6` or are empty, the guard
draw made after the last event fails, every guard draw before an event
passed, and every weight lies in `[14, 16]`. -/
theorem eventsLoop_spec (F : Faker) (u : Nat → ℚ) (hu : ValidTape u) :
    ∀ fuel j rp dp, 7 ≤ j + fuel →
      (j + (eventsLoop F u fuel j rp dp).1.length ≤ 6 ∨
        (eventsLoop F u fuel j rp dp).1.length = 0) ∧
      randomIntFromInterval (u (rp + 2 * (eventsLoop F u fuel j rp dp).1.length)) 1 6
        ≤ (j : Int) + ((eventsLoop F u fuel j rp dp).1.length : Int) ∧
      (∀ k, k < (eventsLoop F u fuel j rp dp).1.length →
        (j : Int) + (k : Int) < randomIntFromInterval (u (rp + 2 * k)) 1 6) ∧
      (∀ e ∈ (eventsLoop F u fuel j rp dp).1, 14 ≤ e.weight ∧ e.weight ≤ 16) := by
  intro fuel
  induction fuel with
  | zero =>
    intro j rp dp hj
    have hlen : (eventsLoop F u 0 j rp dp).1.length = 0 := rfl
    have hnil : (eventsLoop F u 0 j rp dp).1 = [] := rfl
    refine ⟨Or.inr hlen, ?_, ?_, ?_⟩
    · have hb := randomIntFromInterval_bounds (u rp) 1 6 (hu rp).1 (hu rp).2 (by norm_num)
      have hj7 : 7 ≤ j := by omega
      have hj7i : (7 : Int) ≤ (j : Int) := by exact_mod_cast hj7
      simp only [hlen, Nat.mul_zero, Nat.add_zero, Nat.cast_zero, add_zero]
      linarith [hb.2]
    · intro k hk
      rw [hlen] at hk
      exact absurd hk (by omega)
    · intro e he
      rw [hnil] at he
      simp at he
  | succ fuel ih =>
    intro j rp dp hj
    by_cases hcond : (j : Int) < randomIntFromInterval (u rp) 1 6
    · have hrec := ih (j+1) (rp+2) (dp+1) (by omega)
      have hb0 := randomIntFromInterval_bounds (u rp) 1 6 (hu rp).1 (hu rp).2 (by norm_num)
      have hj5 : j ≤ 5 := by
        have h6 : (j : Int) < 6 := lt_of_lt_of_le hcond hb0.2
        omega
      have hev : eventsLoop F u (fuel+1) j rp dp
          = ({ timestamp_event := F.datePast dp,
               weight := randomIntFromInterval (u (rp+1)) 14 16 }
              :: (eventsLoop F u fuel (j+1) (rp+2) (dp+1)).1,
             (eventsLoop F u fuel (j+1) (rp+2) (dp+1)).2) := by
        simp [eventsLoop, hcond]
      rw [hev]
      simp only [List.length_cons]
      refine ⟨?_, ?_, ?_, ?_⟩
      · rcases hrec.1 with h | h
        · exact Or.inl (by omega)
        · exact Or.inl (by omega)
      · have h2 := hrec.2.1
        have hidx : rp + 2 * ((eventsLoop F u fuel (j+1) (rp+2) (dp+1)).1.length + 1)
            = rp + 2 + 2 * (eventsLoop F u fuel (j+1) (rp+2) (dp+1)).1.length := by ring
        rw [hidx]
        push_cast at h2 ⊢
        linarith
      · intro k hk
        match k with
        | 0 =>
          simpa using hcond
        | Nat.succ k2 =>
          have h3 := hrec.2.2.1 k2 (by omega)
          have hidx : rp + 2 * (k2 + 1) = rp + 2 + 2 * k2 := by ring
          rw [hidx]
          push_cast at h3 ⊢
          linarith
      · intro e he
        rcases List.mem_cons.mp he with h | h
        · have hw := randomIntFromInterval_bounds (u (rp+1)) 14 16 (hu (rp+1)).1 (hu (rp+1)).2 (by norm_num)
          rw [h]
          exact hw
        · exact hrec.2.2.2 e h
    · have hev : eventsLoop F u (fuel+1) j rp dp = ([], rp+1, dp) := by
        simp [eventsLoop, hcond]
      rw [hev]
      refine ⟨Or.inr rfl, ?_, ?_, ?_⟩
      · have hnot := not_lt.mp hcond
        simpa using hnot
      · intro k hk
        simp at hk
      · intro e he
        simp at he

/-- The events of a generated day are exactly the events produced by the
embedded inner loop, started with fuel 7 at counter 0. -/
theorem mkDay_events (F : Faker) (u : Nat → ℚ) (i rp dp : Nat) :
    (mkDay F u i rp dp).1.events = (eventsLoop F u 7 0 rp (dp+1)).1 := rfl

/-- Per-day invariant: on a valid tape, every generated day has between 1
and 6 events, and every event weight lies in `[14, 16]`. -/
theorem mkDay_events_spec (F : Faker) (u : Nat → ℚ) (hu : ValidTape u) (i rp dp : Nat) :
    (1 ≤ (mkDay F u i rp dp).1.events.length ∧ (mkDay F u i rp dp).1.events.length ≤ 6) ∧
    (∀ e ∈ (mkDay F u i rp dp).1.events, 14 ≤ e.weight ∧ e.weight ≤ 16) := by
  have hs := eventsLoop_spec F u hu 7 0 rp (dp+1) (by omega)
  rw [mkDay_events]
  have hge : 1 ≤ (eventsLoop F u 7 0 rp (dp+1)).1.length := by
    have hb := randomIntFromInterval_bounds
      (u (rp + 2 * (eventsLoop F u 7 0 rp (dp+1)).1.length)) 1 6 (hu _).1 (hu _).2 (by norm_num)
    have h2 := hs.2.1
    have h3 : (1 : Int) ≤ ((eventsLoop F u 7 0 rp (dp+1)).1.length : Int) := by
      push_cast at h2 ⊢
      linarith [hb.1]
    exact_mod_cast h3
  have hle : (eventsLoop F u 7 0 rp (dp+1)).1.length ≤ 6 := by
    rcases hs.1 with h | h
    · omega
    · omega
  exact ⟨⟨hge, hle⟩, hs.2.2.2⟩

/-- One-step unfolding of the outer seeding loop. -/
theorem seedLoop_succ (F : Faker) (u : Nat → ℚ) (n i rp dp : Nat) :
    seedLoop F u (n+1) i rp dp
      = (mkDay F u i rp dp).1
          :: seedLoop F u n (i+1) (mkDay F u i rp dp).2.1 (mkDay F u i rp dp).2.2 := rfl

/-- Every member of the outer-loop output is a `mkDay` result. -/
theorem seedLoop_mem_mkDay (F : Faker) (u : Nat → ℚ) :
    ∀ n i rp dp d, d ∈ seedLoop F u n i rp dp →
      ∃ i2 rp2 dp2, d = (mkDay F u i2 rp2 dp2).1 := by
  intro n
  induction n with
  | zero =>
    intro i rp dp d hd
    simp [seedLoop] at hd
  | succ n ih =>
    intro i rp dp d hd
    rw [seedLoop_succ] at hd
    rcases List.mem_cons.mp hd with h | h
    · exact ⟨i, rp, dp, h⟩
    · exact ih _ _ _ d h

/-- The outer loop produces exactly as many days as it has iterations. -/
theorem seedLoop_length (F : Faker) (u : Nat → ℚ) :
    ∀ n i rp dp, (seedLoop F u n i rp dp).length = n := by
  intro n
  induction n with
  | zero => intro i rp dp; rfl
  | succ n ih =>
    intro i rp dp
    rw [seedLoop_succ, List.length_cons, ih]

/-- The first generated day is a member of the generated data. -/
theorem timeSeriesData_head_mem (F : Faker) (u : Nat → ℚ) :
    (mkDay F u 0 0 0).1 ∈ timeSeriesData F u := by
  have h5 : (5000 : Nat) = 4999 + 1 := by norm_num
  rw [timeSeriesData, h5, seedLoop_succ]
  exact List.mem_cons_self _ _

/-- The all-zero tape is a valid `Math.random()` tape. -/
theorem u0_valid : ValidTape u0 := by
  intro n
  constructor <;> norm_num [u0]

/-- The tape `uA` is a valid `Math.random()` tape. -/
theorem uA_valid : ValidTape uA := by
  intro n
  by_cases h : n = 0
  · rw [uA]
    simp only [h, if_pos]
    norm_num
  · rw [uA]
    simp only [h, if_neg, if_false]
    norm_num

/-- The tape `uB` is a valid `Math.random()` tape. -/
theorem uB_valid : ValidTape uB := by
  intro n
  constructor <;> norm_num [uB]

/-- C1 counterexample: the spec claims `generate(count)` returns exactly
`count` items with `count` a supplied input (default 5000).  The source
loop bound is the hardcoded constant 5000 and `seedDB` takes no count, so
for the supplied count 3 the code's output (5000 documents) differs from
the spec's `generate` applied to 3. -/
theorem C1_counterexample :
    (timeSeriesData F0 u0).length = 5000 ∧ (generateSpec F0 u0 3).length = 3 ∧
    timeSeriesData F0 u0 ≠ generateSpec F0 u0 3 := by
  have h1 : (timeSeriesData F0 u0).length = 5000 := seedLoop_length F0 u0 5000 0 0 0
  have h2 : (generateSpec F0 u0 3).length = 3 := seedLoop_length F0 u0 3 0 0 0
  refine ⟨h1, h2, ?_⟩
  intro h
  rw [h] at h1
  omega

/-- C1 (amended): the generator of `myapp.js` has no count input; it
produces exactly 5000 SyntheticDay documents on every run, whatever the
random draws. -/
theorem C1_count_constant (F : Faker) (u : Nat → ℚ) :
    (timeSeriesData F u).length = 5000 :=
  seedLoop_length F u 5000 0 0 0

/-- C2: every SyntheticDay generated by the seeder has an events list whose
length is in `[1, 6]`, and every event in it has an integer weight in
`[14, 16]`, for every valid `Math.random()` tape (every draw in `[0, 1)`,
the contract of `Math.random()`). -/
theorem C2_events_invariant (F : Faker) (u : Nat → ℚ) (hu : ValidTape u) :
    ∀ d ∈ timeSeriesData F u,
      (1 ≤ d.events.length ∧ d.events.length ≤ 6) ∧
      ∀ e ∈ d.events, 14 ≤ e.weight ∧ e.weight ≤ 16 := by
  intro d hd
  obtain ⟨i2, rp2, dp2, rfl⟩ := seedLoop_mem_mkDay F u 5000 0 0 0 d hd
  exact mkDay_events_spec F u hu i2 rp2 dp2

/-- C2 witness: the invariant instantiated at the concrete oracles `F0`,
`u0` and the first generated day. -/
theorem C2_events_invariant_witness :
    ValidTape u0 ∧ (mkDay F0 u0 0 0 0).1 ∈ timeSeriesData F0 u0 ∧
    ((1 ≤ (mkDay F0 u0 0 0 0).1.events.length ∧
        (mkDay F0 u0 0 0 0).1.events.length ≤ 6) ∧
      ∀ e ∈ (mkDay F0 u0 0 0 0).1.events, 14 ≤ e.weight ∧ e.weight ≤ 16) :=
  ⟨u0_valid, timeSeriesData_head_mem F0 u0,
   C2_events_invariant F0 u0 u0_valid _ (timeSeriesData_head_mem F0 u0)⟩

/-- When the guard draw passes, one event is produced and the loop
continues with the counter and tape positions advanced. -/
theorem eventsLoop_len_pos (F : Faker) (u : Nat → ℚ) (fuel j rp dp : Nat)
    (h : (j : Int) < randomIntFromInterval (u rp) 1 6) :
    (eventsLoop F u (fuel+1) j rp dp).1.length
      = (eventsLoop F u fuel (j+1) (rp+2) (dp+1)).1.length + 1 := by
  simp [eventsLoop, h]

/-- When the guard draw fails, the loop stops with no further event. -/
theorem eventsLoop_len_neg (F : Faker) (u : Nat → ℚ) (fuel j rp dp : Nat)
    (h : ¬ (j : Int) < randomIntFromInterval (u rp) 1 6) :
    (eventsLoop F u (fuel+1) j rp dp).1.length = 0 := by
  simp [eventsLoop, h]

/-- Every draw of the tape `uB` yields the bound 6. -/
theorem uB_bound (n : Nat) : randomIntFromInterval (uB n) 1 6 = 6 := by
  rw [uB, randomIntFromInterval]
  norm_num

/-- The first draw of `uA` yields the bound 6, all later draws yield 1. -/
theorem uA_bound (n : Nat) :
    randomIntFromInterval (uA n) 1 6 = if n = 0 then 6 else 1 := by
  rw [uA, randomIntFromInterval]
  by_cases h : n = 0
  · simp only [h, if_pos]
    norm_num
  · simp only [h, if_neg, if_false]
    norm_num

/-- C3 counterexample: the spec claims a single uniform draw determines the
per-day event count.  The valid tapes `uA` and `uB` agree on the first
draw, yet produce days with 1 and 6 events respectively: the source loop
guard re-draws `randomIntFromInterval(1, 6)` before every iteration, so no
single draw determines the count. -/
theorem C3_counterexample :
    ValidTape uA ∧ ValidTape uB ∧ uA 0 = uB 0 ∧
    (mkDay F0 uA 0 0 0).1.events.length = 1 ∧
    (mkDay F0 uB 0 0 0).1.events.length = 6 := by
  refine ⟨uA_valid, uB_valid, by norm_num [uA, uB], ?_, ?_⟩
  · rw [mkDay_events]
    have s0 := eventsLoop_len_pos F0 uA 6 0 0 1 (by rw [uA_bound]; norm_num)
    have s1 := eventsLoop_len_neg F0 uA 5 1 2 2 (by rw [uA_bound]; norm_num)
    rw [s0, s1]
  · rw [mkDay_events]
    have s0 := eventsLoop_len_pos F0 uB 6 0 0 1 (by rw [uB_bound]; norm_num)
    have s1 := eventsLoop_len_pos F0 uB 5 1 2 2 (by rw [uB_bound]; norm_num)
    have s2 := eventsLoop_len_pos F0 uB 4 2 4 3 (by rw [uB_bound]; norm_num)
    have s3 := eventsLoop_len_pos F0 uB 3 3 6 4 (by rw [uB_bound]; norm_num)
    have s4 := eventsLoop_len_pos F0 uB 2 4 8 5 (by rw [uB_bound]; norm_num)
    have s5 := eventsLoop_len_pos F0 uB 1 5 10 6 (by rw [uB_bound]; norm_num)
    have s6 := eventsLoop_len_neg F0 uB 0 6 12 7 (by rw [uB_bound]; norm_num)
    rw [s0, s1, s2, s3, s4, s5, s6]

/-- C3 (amended): on a valid tape the per-day event count lies in `[1, 6]`
and is determined by the successive guard draws of the loop, one fresh
draw per guard check: every guard before the count passed and the guard at
the count failed.  The count is a function of several independent draws,
not of a single one. -/
theorem C3_event_count_guards (F : Faker) (u : Nat → ℚ) (hu : ValidTape u) (i rp dp : Nat) :
    (1 ≤ (mkDay F u i rp dp).1.events.length ∧ (mkDay F u i rp dp).1.events.length ≤ 6) ∧
    (∀ k, k < (mkDay F u i rp dp).1.events.length →
      (k : Int) < randomIntFromInterval (u (rp + 2 * k)) 1 6) ∧
    randomIntFromInterval (u (rp + 2 * (mkDay F u i rp dp).1.events.length)) 1 6
      ≤ ((mkDay F u i rp dp).1.events.length : Int) := by
  have hs := eventsLoop_spec F u hu 7 0 rp (dp+1) (by omega)
  have hm := mkDay_events_spec F u hu i rp dp
  rw [mkDay_events F u i rp dp]
  refine ⟨?_, ?_, ?_⟩
  · rw [mkDay_events F u i rp dp] at hm
    exact hm.1
  · intro k hk
    have h3 := hs.2.2.1 k hk
    push_cast at h3 ⊢
    linarith
  · have h2 := hs.2.1
    push_cast at h2 ⊢
    linarith

/-- C3 witness: the guard characterization instantiated at the concrete
oracles `F0`, `u0`. -/
theorem C3_event_count_guards_witness :
    ValidTape u0 ∧
    ((1 ≤ (mkDay F0 u0 0 0 0).1.events.length ∧ (mkDay F0 u0 0 0 0).1.events.length ≤ 6) ∧
     (∀ k, k < (mkDay F0 u0 0 0 0).1.events.length →
       (k : Int) < randomIntFromInterval (u0 (0 + 2 * k)) 1 6) ∧
     randomIntFromInterval (u0 (0 + 2 * (mkDay F0 u0 0 0 0).1.events.length)) 1 6
       ≤ ((mkDay F0 u0 0 0 0).1.events.length : Int)) :=
  ⟨u0_valid, C3_event_count_guards F0 u0 u0_valid 0 0 0⟩

/-- C4 counterexample: the spec claims the day's string field is named
`category`; the serialized document of the first generated day has no
`category` key — its keys are `timestamp_day`, `cat`, `owner`, `events`,
with the string field named `cat`. -/
theorem C4_counterexample :
    ("category" ∉ docKeys (mkDay F0 u0 0 0 0).1) ∧
    docKeys (mkDay F0 u0 0 0 0).1 = ["timestamp_day", "cat", "owner", "events"] := by
  exact ⟨by decide, rfl⟩

/-- C4 (amended): every SyntheticDay produced by the generator serializes
with exactly the declared field names except that the string field is
named `cat` (not `category`): top-level keys `timestamp_day`, `cat`,
`owner`, `events`, owner keys `email`, `firstName`, `lastName`. -/
theorem C4_field_names (F : Faker) (u : Nat → ℚ) :
    ∀ d ∈ timeSeriesData F u,
      docKeys d = ["timestamp_day", "cat", "owner", "events"] ∧
      ownerKeys d = ["email", "firstName", "lastName"] := by
  intro d _
  exact ⟨rfl, rfl⟩

/-- C4 witness: the field names of the first generated day, at the concrete
oracles `F0`, `u0`. -/
theorem C4_field_names_witness :
    (mkDay F0 u0 0 0 0).1 ∈ timeSeriesData F0 u0 ∧
    docKeys (mkDay F0 u0 0 0 0).1 = ["timestamp_day", "cat", "owner", "events"] ∧
    ownerKeys (mkDay F0 u0 0 0 0).1 = ["email", "firstName", "lastName"] :=
  ⟨timeSeriesData_head_mem F0 u0,
   C4_field_names F0 u0 _ (timeSeriesData_head_mem F0 u0)⟩

/-- C5: the connection close runs in the `finally` block on every exit
path: whatever the outcomes of connect and the bulk insert, the trace of
`seedDB` attempts `client.close()` before returning — the trace always
ends with the close and its log line. -/
theorem C5_close_every_path (env : SeedEnv) :
    DbAction.close ∈ (seedDB env).1 ∧
    ∃ pre, (seedDB env).1 = pre ++ [DbAction.close, DbAction.log LogMsg.closedMsg] := by
  constructor
  · simp [seedDB]
  · exact ⟨(seedTry env).1
      ++ (if (seedTry env).2 then [DbAction.log LogMsg.errStackMsg] else []), rfl⟩

/-- C6: generation performs no store writes and persistence is a single
bulk insert: when connect and insert succeed, the trace of `seedDB`
contains exactly one insert call, whose payload is the entire in-memory
`timeSeriesData` output — not one insert per document, not several
batches. -/
theorem C6_single_bulk_insert (env : SeedEnv) (hc : env.connectOk = true)
    (hi : env.insertOk = true) :
    (seedDB env).1.filter isInsert
      = [DbAction.insertMany (timeSeriesData env.F env.u)] := by
  simp [seedDB, seedTry, hc, hi, isInsert]

/-- C6 witness: the single-bulk-insert property at the concrete no-fault
environment. -/
theorem C6_single_bulk_insert_witness :
    env0.connectOk = true ∧ env0.insertOk = true ∧
    (seedDB env0).1.filter isInsert
      = [DbAction.insertMany (timeSeriesData env0.F env0.u)] :=
  ⟨rfl, rfl, C6_single_bulk_insert env0 rfl rfl⟩

/-- C10: seeding never propagates an error to its caller: for every fault
environment the run returns normally, the client close is still attempted,
and the error-stack log appears exactly when connect or the insert
failed. -/
theorem C10_no_error_propagation (env : SeedEnv) :
    (seedDB env).2 = false ∧ DbAction.close ∈ (seedDB env).1 ∧
    (DbAction.log LogMsg.errStackMsg ∈ (seedDB env).1
      ↔ (env.connectOk && env.insertOk) = false) := by
  refine ⟨rfl, by simp [seedDB], ?_⟩
  cases hc : env.connectOk
  · cases hi : env.insertOk <;> simp [seedDB, seedTry, hc, hi]
  · cases hi : env.insertOk <;> simp [seedDB, seedTry, hc, hi]

/-- C10 witness: a failing connect still returns normally and closes the
client. -/
theorem C10_no_error_propagation_witness :
    (seedDB envFail).2 = false ∧ DbAction.close ∈ (seedDB envFail).1 :=
  ⟨(C10_no_error_propagation envFail).1, (C10_no_error_propagation envFail).2.1⟩

/-- An empty input produces no chunks. -/
theorem chunks_nil (B : Nat) : chunks B [] = [] := by
  rw [chunks]

/-- One-step unfolding of the reference chunking. -/
theorem chunks_cons (B : Nat) (d : IndexDoc) (rest : List IndexDoc) :
    chunks B (d :: rest) = (d :: rest.take (B - 1)) :: chunks B (rest.drop (B - 1)) := by
  rw [chunks]

/-- For a positive size, chunking a non-empty list takes the first `B`
elements as the first chunk and recurses on the rest. -/
theorem chunks_take_drop (B : Nat) (hB : 0 < B) (l : List IndexDoc) (hl : l ≠ []) :
    chunks B l = l.take B :: chunks B (l.drop B) := by
  match l with
  | [] => exact absurd rfl hl
  | d :: rest =>
    have hB1 : B = (B - 1) + 1 := by omega
    have ht : (d :: rest).take B = d :: rest.take (B - 1) := by
      conv_lhs => rw [hB1]
      rw [List.take_succ_cons]
    have hd : (d :: rest).drop B = rest.drop (B - 1) := by
      conv_lhs => rw [hB1]
      rw [List.drop_succ_cons]
    rw [chunks_cons, ht, hd]

/-- The spec-modelled loader equals the reference chunking, for any buffer
shorter than the batch size. -/
theorem loadAux_eq_chunks (B : Nat) (hB : 0 < B) :
    ∀ (l buf : List IndexDoc), buf.length < B → loadAux B buf l = chunks B (buf ++ l) := by
  intro l
  induction l with
  | nil =>
    intro buf hbuf
    match buf with
    | [] =>
      rw [List.nil_append, chunks_nil, loadAux]
      rfl
    | b :: bs =>
      rw [loadAux]
      simp only [List.isEmpty_cons, List.append_nil]
      rw [chunks_cons]
      have hlen : bs.length ≤ B - 1 := by
        simp only [List.length_cons] at hbuf
        omega
      have h1 : bs.take (B - 1) = bs := List.take_of_length_le hlen
      have h2 : bs.drop (B - 1) = [] := List.drop_eq_nil_of_le hlen
      rw [h1, h2, chunks_nil]
      simp
  | cons d rest ih =>
    intro buf hbuf
    rw [loadAux]
    by_cases hfull : (buf ++ [d]).length = B
    · rw [if_pos hfull]
      rw [ih [] (by simpa using hB), List.nil_append]
      rw [show buf ++ d :: rest = (buf ++ [d]) ++ rest by simp]
      rw [chunks_take_drop B hB ((buf ++ [d]) ++ rest) (by simp)]
      rw [List.take_left' hfull, List.drop_left' hfull]
    · rw [if_neg hfull]
      have h1 : (buf ++ [d]).length = buf.length + 1 := by simp
      have hlen : (buf ++ [d]).length < B := by omega
      rw [ih (buf ++ [d]) hlen]
      congr 1
      simp

/-- Chunking yields the empty chunk list only for the empty input. -/
theorem chunks_eq_nil (B : Nat) (l : List IndexDoc) (h : chunks B l = []) : l = [] := by
  match l with
  | [] => rfl
  | d :: rest =>
    rw [chunks_cons] at h
    exact absurd h (by simp)

/-- The number of chunks is the ceiling of the input length over `B`. -/
theorem chunks_length (B : Nat) (hB : 0 < B) :
    ∀ l : List IndexDoc, (chunks B l).length = (l.length + B - 1) / B := by
  intro l
  induction l using chunks.induct B with
  | case1 =>
    rw [chunks_nil]
    simp only [List.length_nil]
    rw [Nat.div_eq_of_lt (by omega)]
  | case2 d rest ih =>
    rw [chunks_cons, List.length_cons, ih, List.length_drop, List.length_cons]
    have hadd : rest.length + 1 + B - 1 = rest.length + B := by omega
    rw [hadd, Nat.add_div_right _ hB]
    by_cases hm : rest.length < B
    · have h0 : rest.length - (B - 1) + B - 1 < B := by omega
      rw [Nat.div_eq_of_lt h0, Nat.div_eq_of_lt hm]
    · have heq : rest.length - (B - 1) + B - 1 = rest.length := by omega
      rw [heq]

/-- Every chunk except possibly the last has length exactly `B`. -/
theorem chunks_dropLast (B : Nat) (hB : 0 < B) :
    ∀ l : List IndexDoc, ∀ c ∈ (chunks B l).dropLast, c.length = B := by
  intro l
  induction l using chunks.induct B with
  | case1 =>
    intro c hc
    rw [chunks_nil] at hc
    simp at hc
  | case2 d rest ih =>
    intro c hc
    rw [chunks_cons] at hc
    match hT : chunks B (rest.drop (B - 1)) with
    | [] =>
      rw [hT] at hc
      simp at hc
    | t :: ts =>
      rw [hT, List.dropLast_cons₂] at hc
      rcases List.mem_cons.mp hc with h | h
      · have hne : rest.drop (B - 1) ≠ [] := by
          intro h0
          rw [h0, chunks_nil] at hT
          exact List.noConfusion hT
        have hlt : B - 1 < rest.length := by
          by_contra hcon
          push_neg at hcon
          exact hne (List.drop_eq_nil_of_le hcon)
        subst h
        simp only [List.length_cons, List.length_take]
        omega
      · exact ih c (by rw [hT]; exact h)

/-- The last chunk has length `l.length % B`, or `B` when `B` divides the
input length. -/
theorem chunks_getLast (B : Nat) (hB : 0 < B) :
    ∀ l : List IndexDoc, ∀ c, (chunks B l).getLast? = some c →
      c.length = if l.length % B = 0 then B else l.length % B := by
  intro l
  induction l using chunks.induct B with
  | case1 =>
    intro c hc
    rw [chunks_nil] at hc
    simp at hc
  | case2 d rest ih =>
    intro c hc
    rw [chunks_cons] at hc
    match hT : chunks B (rest.drop (B - 1)) with
    | [] =>
      rw [hT] at hc
      simp only [List.getLast?_singleton, Option.some_inj] at hc
      have hdrop : rest.drop (B - 1) = [] := chunks_eq_nil B _ hT
      have hlen0 : rest.length - (B - 1) = 0 := by
        have := congrArg List.length hdrop
        simpa [List.length_drop] using this
      have hle : rest.length ≤ B - 1 := by omega
      have htake : rest.take (B - 1) = rest := List.take_of_length_le hle
      rw [htake] at hc
      rw [List.length_cons]
      by_cases hNB : rest.length + 1 = B
      · rw [hNB, Nat.mod_self, if_pos rfl, ← hc, List.length_cons, hNB]
      · have hlt : rest.length + 1 < B := by omega
        rw [Nat.mod_eq_of_lt hlt, if_neg (by omega), ← hc, List.length_cons]
    | t :: ts =>
      rw [hT, List.getLast?_cons_cons] at hc
      have h2 := ih c (by rw [hT]; exact hc)
      have hne : rest.drop (B - 1) ≠ [] := by
        intro h0
        rw [h0, chunks_nil] at hT
        exact List.noConfusion hT
      have hlt : B - 1 < rest.length := by
        by_contra hcon
        push_neg at hcon
        exact hne (List.drop_eq_nil_of_le hcon)
      rw [List.length_drop] at h2
      have hmod : (rest.length - (B - 1)) % B = (rest.length + 1) % B := by
        have hsum : rest.length + 1 = (rest.length - (B - 1)) + B := by omega
        rw [hsum, Nat.add_mod_right]
      rw [hmod] at h2
      rw [List.length_cons]
      exact h2

/-- C7: for every input sequence of N index documents and every positive
batch size B, the loader pushes exactly ceil(N/B) batches; every batch
except possibly the last carries exactly B documents, and the last carries
N mod B documents (or B when B divides N). -/
theorem C7_load_batching (B : Nat) (hB : 0 < B) (docs : List IndexDoc) :
    (load B docs).length = (docs.length + B - 1) / B ∧
    (∀ c ∈ (load B docs).dropLast, c.length = B) ∧
    (∀ c, (load B docs).getLast? = some c →
      c.length = if docs.length % B = 0 then B else docs.length % B) := by
  have hl : load B docs = chunks B docs := by
    rw [load, loadAux_eq_chunks B hB docs [] (by simpa using hB), List.nil_append]
  rw [hl]
  exact ⟨chunks_length B hB docs, chunks_dropLast B hB docs, chunks_getLast B hB docs⟩

/-- C7 witness: the batching law at batch size 2 over three documents. -/
theorem C7_load_batching_witness :
    0 < 2 ∧
    ((load 2 docs3).length = (docs3.length + 2 - 1) / 2 ∧
     (∀ c ∈ (load 2 docs3).dropLast, c.length = 2) ∧
     (∀ c, (load 2 docs3).getLast? = some c →
       c.length = if docs3.length % 2 = 0 then 2 else docs3.length % 2)) :=
  ⟨by norm_num, C7_load_batching 2 (by norm_num) docs3⟩

/-- Deleting an index removes every entry under that name. -/
theorem getIndex_deleteIndex (n : String) :
    ∀ st : ServiceState, getIndex n (deleteIndex n st) = none := by
  intro st
  induction st with
  | nil => rfl
  | cons p rest ih =>
    obtain ⟨m, idx⟩ := p
    by_cases h : m = n
    · rw [deleteIndex, if_pos h]
      exact ih
    · rw [deleteIndex, if_neg h, getIndex, if_neg h]
      exact ih

/-- Deleting a name that is absent leaves the state unchanged. -/
theorem deleteIndex_of_none (n : String) :
    ∀ st : ServiceState, getIndex n st = none → deleteIndex n st = st := by
  intro st
  induction st with
  | nil => intro _; rfl
  | cons p rest ih =>
    obtain ⟨m, idx⟩ := p
    intro h
    rw [getIndex] at h
    by_cases hm : m = n
    · rw [if_pos hm] at h
      exact absurd h (by simp)
    · rw [if_neg hm] at h
      rw [deleteIndex, if_neg hm, ih h]

/-- Deletion distributes over concatenation of states. -/
theorem deleteIndex_append (n : String) :
    ∀ a b : ServiceState, deleteIndex n (a ++ b) = deleteIndex n a ++ deleteIndex n b := by
  intro a b
  induction a with
  | nil => rfl
  | cons p rest ih =>
    obtain ⟨m, idx⟩ := p
    by_cases h : m = n
    · rw [List.cons_append, deleteIndex, if_pos h, deleteIndex, if_pos h, ih]
    · rw [List.cons_append, deleteIndex, if_neg h, deleteIndex, if_neg h, ih,
        List.cons_append]

/-- Looking up a name that is absent from the front part of a state finds
the entry appended at the back. -/
theorem getIndex_append_self (n : String) (x : RemoteIndex) :
    ∀ st : ServiceState, getIndex n st = none → getIndex n (st ++ [(n, x)]) = some x := by
  intro st
  induction st with
  | nil =>
    intro _
    rw [List.nil_append, getIndex, if_pos rfl]
  | cons p rest ih =>
    obtain ⟨m, idx⟩ := p
    intro h
    rw [getIndex] at h
    by_cases hm : m = n
    · rw [if_pos hm] at h
      exact absurd h (by simp)
    · rw [if_neg hm] at h
      rw [List.cons_append, getIndex, if_neg hm]
      exact ih h

/-- Both branches of `ensureIndex` amount to removing any existing index of
that name and appending the freshly created one. -/
theorem ensureIndex_eq (s : IndexSchema) (st : ServiceState) :
    ensureIndex s st
      = deleteIndex s.name st ++ [(s.name, { fields := s.fields, data := [] })] := by
  rw [ensureIndex]
  by_cases h : indexExists s.name st
  · rw [if_pos h, createIndex]
  · rw [if_neg h, createIndex]
    have h0 : getIndex s.name st = none := by
      rw [indexExists] at h
      exact Option.not_isSome_iff_eq_none.mp (by simpa using h)
    rw [deleteIndex_of_none s.name st h0]

/-- C8: `ensureIndex` has idempotent recreate semantics: running it twice
with the same schema leaves the service state exactly as after one run, and
after a run the index under `schema.name` holds exactly the schema's field
set and no data carried over from any prior index. -/
theorem C8_ensureIndex_idempotent (s : IndexSchema) (st : ServiceState) :
    ensureIndex s (ensureIndex s st) = ensureIndex s st ∧
    getIndex s.name (ensureIndex s st)
      = some { fields := s.fields, data := [] } := by
  have hdel : getIndex s.name (deleteIndex s.name st) = none :=
    getIndex_deleteIndex s.name st
  have hget : getIndex s.name (ensureIndex s st)
      = some { fields := s.fields, data := [] } := by
    rw [ensureIndex_eq]
    exact getIndex_append_self s.name _ (deleteIndex s.name st) hdel
  refine ⟨?_, hget⟩
  rw [ensureIndex_eq s (ensureIndex s st), ensureIndex_eq s st]
  rw [deleteIndex_append s.name (deleteIndex s.name st)]
  rw [deleteIndex_of_none s.name (deleteIndex s.name st) hdel]
  have hone : deleteIndex s.name
      [(s.name, ({ fields := s.fields, data := [] } : RemoteIndex))] = [] := by
    rw [deleteIndex, if_pos rfl]
    rfl
  rw [hone, List.append_nil]

/-- C9: the transformer is a deterministic pure function: identical source
documents transform to identical index documents, and running it with an
explicit service-state world returns the pure result and leaves the world
untouched (no I/O). -/
theorem C9_transform_deterministic (d1 d2 : SourceDoc) (h : d1 = d2)
    (st1 st2 : ServiceState) :
    transform_document d1 = transform_document d2 ∧
    (transformWithState st1 d1).1 = (transformWithState st2 d1).1 ∧
    (transformWithState st1 d1).2 = st1 := by
  subst h
  exact ⟨rfl, rfl, rfl⟩

/-- C9 witness: the determinism law at a concrete source document and
concrete worlds. -/
theorem C9_transform_deterministic_witness :
    doc0 = doc0 ∧
    (transform_document doc0 = transform_document doc0 ∧
     (transformWithState [] doc0).1 = (transformWithState [] doc0).1 ∧
     (transformWithState [] doc0).2 = ([] : ServiceState)) :=
  ⟨rfl, C9_transform_deterministic doc0 doc0 rfl [] []⟩
